import Mathlib

/-!
Shallow embedding of MinecraftSimpleProxy (JavaScript) for verification.

Buffers (Node `Buffer`) are modelled as `List Nat` whose elements are byte
values below 256; JavaScript strings are modelled as `List Char`.  UTF-8
decoding is modelled for ASCII byte sequences only (`asciiDecode`), which is
all the theorems below exercise.  32-bit signed JavaScript bitwise arithmetic
is modelled on `Nat` bit patterns with an explicit `% 2 ^ 32`, converted to a
signed integer by `toSigned32`.
-/

namespace MCProxy

/-- Characters kept by the regex class `[^a-zA-Z0-9-.]` replacement in
`sanitizeDomain` (src/utils/protocolUtils.js). -/
def isAllowedChar (c : Char) : Bool :=
  ('a' ≤ c && c ≤ 'z') || ('A' ≤ c && c ≤ 'Z') || ('0' ≤ c && c ≤ '9') || c = '-' || c = '.'

/-- Decimal digit characters, the class `\d` of the JavaScript regexes. -/
def isDigitChar (c : Char) : Bool :=
  '0' ≤ c && c ≤ '9'

/-- White-space characters removed by JavaScript `String.prototype.trim`
(the ones expressible in the ASCII range; `sanitizeDomain` only ever trims
strings whose characters already lie in `[a-zA-Z0-9-.]`). -/
def isJsWhitespace (c : Char) : Bool :=
  c = ' ' || c = Char.ofNat 9 || c = Char.ofNat 10 || c = Char.ofNat 13 ||
    c = Char.ofNat 11 || c = Char.ofNat 12

/-- Model of JavaScript `String.prototype.trim`: drop white-space from both
ends. -/
def trimJs (l : List Char) : List Char :=
  ((l.dropWhile isJsWhitespace).reverse.dropWhile isJsWhitespace).reverse

/-- Whether the regex `/FML\d*$/` matches at the start of `xs`, i.e. `xs` is
`F`, `M`, `L` followed by digits only. -/
def fmlMatch (xs : List Char) : Bool :=
  match xs with
  | a :: b :: c :: rest => a = 'F' && b = 'M' && c = 'L' && rest.all isDigitChar
  | _ => false

/-- Model of `.replace(/FML\d*$/, '')`: remove the leftmost match of
`FML\d*$` (which necessarily extends to the end of the string), or return the
string unchanged when there is no match. -/
def stripFML : List Char → List Char
  | [] => []
  | c :: l => if fmlMatch (c :: l) then [] else c :: stripFML l

/-- Model of `.replace(/\.+$/, '')`: remove the leftmost (hence maximal) run
of dots ending the string. -/
def stripTrailingDotsJs : List Char → List Char
  | [] => []
  | c :: l => if (c :: l).all (· = '.') then [] else c :: stripTrailingDotsJs l

/-- Model of `sanitizeDomain` (src/utils/protocolUtils.js, lines 108-118):
filter the character class, strip a `FML\d*` suffix, trim white-space, strip
trailing dots.  The source performs no lower-casing. -/
def sanitizeDomain (l : List Char) : List Char :=
  stripTrailingDotsJs (trimJs (stripFML (l.filter isAllowedChar)))

/-- Spec-worded FML stripping: drop the trailing digits, and if what remains
ends in `FML` (its reversal starts with `L`, `M`, `F`), remove that whole
suffix from the string; otherwise leave the string unchanged. -/
def specStripFML (l : List Char) : List Char :=
  if (l.reverse.dropWhile isDigitChar).take 3 = ['L', 'M', 'F'] then
    ((l.reverse.dropWhile isDigitChar).drop 3).reverse
  else l

/-- Spec-worded trailing-dot stripping: drop dots from the end. -/
def specStripTrailingDots (l : List Char) : List Char :=
  (l.reverse.dropWhile (· = '.')).reverse

/-- ASCII lower-casing, the effect of `String.prototype.toLowerCase` on the
characters that survive the `[a-zA-Z0-9-.]` filter. -/
def lowerAscii (c : Char) : Char :=
  if 'A' ≤ c && c ≤ 'Z' then Char.ofNat (c.toNat + 32) else c

/-- Domain normalisation as the specification words it (claim C2): strip
characters outside the class, strip a trailing `FML` plus optional digits,
trim white-space, strip trailing dots, and lower-case the result. -/
def specNormalize (l : List Char) : List Char :=
  (specStripTrailingDots (trimJs (specStripFML (l.filter isAllowedChar)))).map lowerAscii

/-- Domain normalisation as the specification words it but without the final
lower-casing step. -/
def specNormalizeNoLower (l : List Char) : List Char :=
  specStripTrailingDots (trimJs (specStripFML (l.filter isAllowedChar)))

example : sanitizeDomain "A".data = "A".data := by decide
example : specNormalize "A".data = "a".data := by decide
example : sanitizeDomain "aFML1FML2".data = "aFML1".data := by decide
example : sanitizeDomain "FML.".data = "FML".data := by decide
example : sanitizeDomain "FML".data = "".data := by decide
example : sanitizeDomain " ex!ample.com. ".data = "example.com".data := by decide

/-! ## VarInt codec (src/utils/protocolUtils.js, readVarInt) -/

/-- Interpretation of a 32-bit pattern as a signed JavaScript 32-bit integer,
the value the `|` accumulation of `readVarInt` produces. -/
def toSigned32 (n : Nat) : Int :=
  if n < 2 ^ 31 then (n : Int) else (n : Int) - 2 ^ 32

/-- Loop of `readVarInt`.  `k` is `bytesRead` so far, `acc` the unsigned
32-bit pattern of the accumulated `value`, and the fuel starts at `5` so that
the too-big check fires exactly when `bytesRead` reaches 5.  The byte masks
`& 0x7F` / `& 0x80` are rendered arithmetically (`Buffer` elements are bytes
below 256), and the 32-bit wrap of `<<` and `|` is the explicit `% 2 ^ 32`. -/
def readVarIntLoop (buffer : List Nat) (offset : Nat) :
    Nat → Nat → Nat → Except String (Int × Nat)
  | 0, _, _ => .error "VarInt is too big"
  | fuel + 1, k, acc =>
    match buffer[offset + k]? with
    | none => .error "Buffer ended unexpectedly while reading VarInt"
    | some b =>
      let acc2 := (acc ||| (b % 128 * 2 ^ (7 * k)) % 2 ^ 32) % 2 ^ 32
      if b % 256 < 128 then .ok (toSigned32 acc2, k + 1)
      else readVarIntLoop buffer offset fuel (k + 1) acc2

/-- Model of `readVarInt(buffer, offset)`. -/
def readVarInt (buffer : List Nat) (offset : Nat) : Except String (Int × Nat) :=
  readVarIntLoop buffer offset 5 0 0

instance {ε α : Type} [DecidableEq ε] [DecidableEq α] : DecidableEq (Except ε α)
  | .error e, .error f =>
    if h : e = f then .isTrue (by rw [h]) else .isFalse (by simp [h])
  | .error _, .ok _ => .isFalse (by simp)
  | .ok _, .error _ => .isFalse (by simp)
  | .ok a, .ok b =>
    if h : a = b then .isTrue (by rw [h]) else .isFalse (by simp [h])

/-- Fuel-indexed helper for the VarInt encoder; the fuel only serves to make
the recursion structural, and `encodeVarInt` always supplies enough. -/
def encodeVarIntAux : Nat → Nat → List Nat
  | 0, n => [n]
  | fuel + 1, n =>
    if n < 128 then [n] else (n % 128 + 128) :: encodeVarIntAux fuel (n / 128)

/-- Modelled from the spec: the standard Minecraft VarInt encoding (7 data
bits per byte, little-endian, continuation bit `0x80`).  The repository only
contains the decoder `readVarInt`; claim C8 quantifies over encodings of the
values in `[0, 2^31)`. -/
def encodeVarInt (n : Nat) : List Nat :=
  encodeVarIntAux n n

lemma encodeVarIntAux_congr :
    ∀ f1 n f2, n ≤ f1 → n ≤ f2 → encodeVarIntAux f1 n = encodeVarIntAux f2 n := by
  intro f1
  induction f1 with
  | zero =>
    intro n f2 h1 _
    interval_cases n
    match f2 with
    | 0 => rfl
    | g + 1 => simp [encodeVarIntAux]
  | succ f ih =>
    intro n f2 h1 h2
    match f2 with
    | 0 =>
      interval_cases n
      simp [encodeVarIntAux]
    | g + 1 =>
      simp only [encodeVarIntAux]
      by_cases hn : n < 128
      · simp [hn]
      · have hdiv : n / 128 < n := Nat.div_lt_self (by omega) (by omega)
        simp only [hn, if_false]
        rw [ih (n / 128) g (by omega) (by omega)]

lemma encodeVarInt_of_lt {n : Nat} (h : n < 128) : encodeVarInt n = [n] := by
  unfold encodeVarInt
  match n with
  | 0 => rfl
  | m + 1 => simp [encodeVarIntAux, h]

lemma encodeVarInt_of_ge {n : Nat} (h : 128 ≤ n) :
    encodeVarInt n = (n % 128 + 128) :: encodeVarInt (n / 128) := by
  unfold encodeVarInt
  match n, h with
  | m + 1, h =>
    simp only [encodeVarIntAux, Nat.not_lt.mpr h, if_false]
    have hdiv : (m + 1) / 128 < m + 1 := Nat.div_lt_self (by omega) (by omega)
    rw [encodeVarIntAux_congr m ((m + 1) / 128) ((m + 1) / 128) (by omega) (by omega)]

example : readVarInt [9, 1, 2] 0 = .ok (9, 1) := by decide
example : readVarInt [172, 2] 0 = .ok (300, 2) := by decide
example : encodeVarInt 300 = [172, 2] := by decide
example : readVarInt [255, 255, 255, 255, 15] 0 = .ok (-1, 5) := by decide
example : readVarInt [128, 128, 128, 128, 128] 0 = .error "VarInt is too big" := by decide
example : readVarInt [128] 0 =
    .error "Buffer ended unexpectedly while reading VarInt" := by decide

lemma encodeVarInt_ne_nil (n : Nat) : encodeVarInt n ≠ [] := by
  by_cases h : n < 128
  · simp [encodeVarInt_of_lt h]
  · simp [encodeVarInt_of_ge (Nat.not_lt.mp h)]

/-- Bytes produced by the encoder are bytes. -/
lemma encodeVarInt_mem_lt (n : Nat) : ∀ b ∈ encodeVarInt n, b < 256 := by
  induction n using Nat.strong_induction_on with
  | _ n ih =>
    by_cases h : n < 128
    · rw [encodeVarInt_of_lt h]; intro b hb; simp at hb; omega
    · push_neg at h
      rw [encodeVarInt_of_ge h]
      intro b hb
      rcases List.mem_cons.mp hb with rfl | hb
      · have := Nat.mod_lt n (show 0 < 128 by omega); omega
      · exact ih (n / 128) (Nat.div_lt_self (by omega) (by omega)) b hb

/-- Length bound for the encoder: a value below `2 ^ (7 * (m + 1))` encodes
into at most `m + 1` bytes. -/
lemma encodeVarInt_length_le (m : Nat) :
    ∀ n, n < 2 ^ (7 * (m + 1)) → (encodeVarInt n).length ≤ m + 1 := by
  induction m with
  | zero =>
    intro n hn
    rw [encodeVarInt_of_lt (by norm_num at hn; omega)]
    simp
  | succ m ih =>
    intro n hn
    by_cases h : n < 128
    · rw [encodeVarInt_of_lt h]; simp
    · push_neg at h
      rw [encodeVarInt_of_ge h]
      simp only [List.length_cons]
      have hdiv : n / 128 < 2 ^ (7 * (m + 1)) := by
        apply Nat.div_lt_of_lt_mul
        calc n < 2 ^ (7 * (m + 2)) := hn
        _ = 2 ^ (7 * (m + 1)) * 128 := by ring
        _ = 128 * 2 ^ (7 * (m + 1)) := by ring
      have := ih (n / 128) hdiv
      omega

/-- Disjoint bit ranges make bitwise or into addition. -/
lemma lor_eq_add_of_lt {a b n : Nat} (ha : a < 2 ^ n) :
    a ||| 2 ^ n * b = 2 ^ n * b + a := by
  apply Nat.eq_of_testBit_eq
  intro j
  have h1 := Nat.testBit_mul_pow_two_add b ha j
  have h2 := Nat.testBit_mul_pow_two_add (a := b) (b := 0) (i := n) (by positivity) j
  rw [Nat.add_zero] at h2
  rw [Nat.testBit_lor, h1, h2]
  by_cases hj : j < n
  · simp [hj]
  · have : a < 2 ^ j := lt_of_lt_of_le ha (Nat.pow_le_pow_right (by omega) (by omega))
    simp [hj, Nat.testBit_lt_two_pow this]

lemma toSigned32_of_lt {n : Nat} (h : n < 2 ^ 31) : toSigned32 n = (n : Int) := by
  unfold toSigned32
  rw [if_pos h]

lemma pow_seven_mul_succ (k : Nat) : 2 ^ (7 * (k + 1)) = 2 ^ (7 * k) * 128 := by
  rw [show 7 * (k + 1) = 7 * k + 7 by ring, pow_add]
  norm_num

/-- Main decoding invariant: if the bytes of `buffer` from position
`offset + k` on start with the encoding of `n`, the loop resumed there with
`k` bytes read and accumulator `acc` returns the combined value. -/
lemma readVarIntLoop_encode (n : Nat) :
    ∀ k acc (buffer rest : List Nat) offset,
      buffer.drop (offset + k) = encodeVarInt n ++ rest →
      acc < 2 ^ (7 * k) →
      acc + n * 2 ^ (7 * k) < 2 ^ 31 →
      k ≤ 4 →
      readVarIntLoop buffer offset (5 - k) k acc =
        .ok (((acc + n * 2 ^ (7 * k) : Nat) : Int), k + (encodeVarInt n).length) := by
  induction n using Nat.strong_induction_on with
  | _ n ih =>
    intro k acc buffer rest offset hdrop hacc hlt hk
    have hfuel : 5 - k = (4 - k) + 1 := by omega
    have hget0 : buffer[offset + k]? = (encodeVarInt n ++ rest)[0]? := by
      rw [← hdrop, List.getElem?_drop, Nat.add_zero]
    have hdmod : n % 128 * 2 ^ (7 * k) % 2 ^ 32 = n % 128 * 2 ^ (7 * k) := by
      apply Nat.mod_eq_of_lt
      have h1 : n % 128 * 2 ^ (7 * k) ≤ n * 2 ^ (7 * k) :=
        Nat.mul_le_mul_right _ (Nat.mod_le n 128)
      have h2 : (2 : Nat) ^ 31 < 2 ^ 32 := by norm_num
      omega
    have hlor : acc ||| n % 128 * 2 ^ (7 * k) = acc + n % 128 * 2 ^ (7 * k) := by
      rw [Nat.mul_comm (n % 128) (2 ^ (7 * k)), lor_eq_add_of_lt hacc]
      ring
    have hacc2lt : acc + n % 128 * 2 ^ (7 * k) < 2 ^ 31 := by
      have h1 : n % 128 * 2 ^ (7 * k) ≤ n * 2 ^ (7 * k) :=
        Nat.mul_le_mul_right _ (Nat.mod_le n 128)
      omega
    have hacc2mod : (acc + n % 128 * 2 ^ (7 * k)) % 2 ^ 32 = acc + n % 128 * 2 ^ (7 * k) := by
      apply Nat.mod_eq_of_lt
      have : (2 : Nat) ^ 31 < 2 ^ 32 := by norm_num
      omega
    by_cases hsmall : n < 128
    · have henc := encodeVarInt_of_lt hsmall
      rw [henc] at hget0
      simp only [List.cons_append, List.getElem?_cons_zero] at hget0
      rw [hfuel]
      simp only [readVarIntLoop, hget0]
      have hb : n % 256 < 128 := by omega
      simp only [hb, if_true, hdmod, hlor, hacc2mod]
      rw [toSigned32_of_lt hacc2lt, henc, Nat.mod_eq_of_lt hsmall]
      simp
    · push_neg at hsmall
      have henc := encodeVarInt_of_ge hsmall
      rw [henc] at hget0
      simp only [List.cons_append, List.getElem?_cons_zero] at hget0
      rw [hfuel]
      simp only [readVarIntLoop, hget0]
      have hbcond : ¬ ((n % 128 + 128) % 256 < 128) := by omega
      have hbyte : (n % 128 + 128) % 128 = n % 128 := by omega
      rw [if_neg hbcond]
      simp only [hbyte, hdmod, hlor, hacc2mod]
      -- the recursive call continues with the encoding of n / 128
      have hdropnext : buffer.drop (offset + (k + 1)) = encodeVarInt (n / 128) ++ rest := by
        have hstep : buffer.drop (offset + (k + 1)) = (buffer.drop (offset + k)).drop 1 := by
          rw [List.drop_drop]
          congr 1
          try omega
        rw [hstep, hdrop, henc]
        simp
      have hknext : k + 1 ≤ 4 := by
        rcases Nat.lt_or_ge k 4 with hk4 | hk4
        · omega
        · exfalso
          have hk4e : k = 4 := by omega
          subst hk4e
          have h1 : (128 : Nat) * 2 ^ (7 * 4) ≤ n * 2 ^ (7 * 4) :=
            Nat.mul_le_mul_right _ hsmall
          have h2 : (128 : Nat) * 2 ^ (7 * 4) = 2 ^ 35 := by norm_num
          have h3 : (2 : Nat) ^ 31 < 2 ^ 35 := by norm_num
          omega
      have haccnext : acc + n % 128 * 2 ^ (7 * k) < 2 ^ (7 * (k + 1)) := by
        rw [pow_seven_mul_succ]
        have h1 : n % 128 ≤ 127 := by omega
        have h2 : n % 128 * 2 ^ (7 * k) ≤ 127 * 2 ^ (7 * k) :=
          Nat.mul_le_mul_right _ h1
        have h3 : 2 ^ (7 * k) * 128 = 2 ^ (7 * k) + 127 * 2 ^ (7 * k) := by ring
        omega
      have hval : acc + n % 128 * 2 ^ (7 * k) + n / 128 * 2 ^ (7 * (k + 1)) =
          acc + n * 2 ^ (7 * k) := by
        rw [pow_seven_mul_succ]
        conv_rhs => rw [← Nat.div_add_mod n 128]
        ring
      have hltnext : acc + n % 128 * 2 ^ (7 * k) + n / 128 * 2 ^ (7 * (k + 1)) < 2 ^ 31 := by
        rw [hval]; exact hlt
      have hrec := ih (n / 128) (Nat.div_lt_self (by omega) (by omega))
        (k + 1) (acc + n % 128 * 2 ^ (7 * k)) buffer rest offset
        hdropnext haccnext hltnext hknext
      have hfuel2 : 5 - (k + 1) = 4 - k := by omega
      rw [hfuel2] at hrec
      rw [hrec, hval, henc]
      simp only [List.length_cons]
      congr 2
      omega

/-- C8: VarInt round-trip.  Decoding the standard Minecraft encoding of any
`n` in `[0, 2^31)` with `readVarInt` at offset 0 yields the value `n` and a
`bytesRead` equal to the encoding's length. -/
theorem readVarInt_encodeVarInt_roundtrip (n : Nat) (h : n < 2 ^ 31) :
    readVarInt (encodeVarInt n) 0 = .ok ((n : Int), (encodeVarInt n).length) := by
  have hmain := readVarIntLoop_encode n 0 0 (encodeVarInt n) [] 0
    (by simp) (by norm_num) (by simpa using h) (by omega)
  simpa [readVarInt] using hmain

/-- Witness for C8 at the concrete value 300. -/
theorem readVarInt_encodeVarInt_roundtrip_witness :
    readVarInt (encodeVarInt 300) 0 = .ok ((300 : Int), (encodeVarInt 300).length) :=
  readVarInt_encodeVarInt_roundtrip 300 (by norm_num)

lemma toSigned32_range {m : Nat} (h : m < 2 ^ 32) :
    -2 ^ 31 ≤ toSigned32 m ∧ toSigned32 m < 2 ^ 31 := by
  unfold toSigned32
  split <;> constructor <;> omega

lemma readVarIntLoop_ok_range :
    ∀ fuel k acc (buffer : List Nat) (offset : Nat) (v : Int) (m : Nat),
      readVarIntLoop buffer offset fuel k acc = .ok (v, m) →
      -2 ^ 31 ≤ v ∧ v < 2 ^ 31 := by
  intro fuel
  induction fuel with
  | zero =>
    intro k acc buffer offset v m h
    simp [readVarIntLoop] at h
  | succ f ih =>
    intro k acc buffer offset v m h
    simp only [readVarIntLoop] at h
    cases hg : buffer[offset + k]? with
    | none => rw [hg] at h; simp at h
    | some b =>
      rw [hg] at h
      simp only at h
      by_cases hb : b % 256 < 128
      · rw [if_pos hb] at h
        have hv : v = toSigned32 ((acc ||| b % 128 * 2 ^ (7 * k) % 2 ^ 32) % 2 ^ 32) := by
          cases h
          rfl
        rw [hv]
        exact toSigned32_range (Nat.mod_lt _ (by norm_num))
      · rw [if_neg hb] at h
        exact ih _ _ _ _ _ _ h

/-- C9: the accumulation of `readVarInt` is 32-bit signed, so every
successfully decoded value lies in `[-2^31, 2^31)`, and the well-formed
5-byte encoding of `2^32 - 1` (value at or above `2^31`) decodes to the
negative value `-1`. -/
theorem readVarInt_value_int32 :
    (∀ (buffer : List Nat) (offset : Nat) (v : Int) (m : Nat),
        readVarInt buffer offset = .ok (v, m) → -2 ^ 31 ≤ v ∧ v < 2 ^ 31) ∧
      readVarInt [255, 255, 255, 255, 15] 0 = .ok (-1, 5) ∧ (-1 : Int) < 0 := by
  refine ⟨?_, by decide, by decide⟩
  intro buffer offset v m h
  exact readVarIntLoop_ok_range 5 0 0 buffer offset v m h

/-- Witness for C9 applied to the concrete 5-byte input. -/
theorem readVarInt_value_int32_witness :
    -2 ^ 31 ≤ (-1 : Int) ∧ (-1 : Int) < 2 ^ 31 :=
  readVarInt_value_int32.1 [255, 255, 255, 255, 15] 0 (-1) 5 (by decide)

/-! ## Equivalence of the regex pipeline with the specification wording -/

lemma dropWhile_append_all {α : Type} (p : α → Bool) {xs : List α} (ys : List α)
    (h : ∀ x ∈ xs, p x = true) :
    (xs ++ ys).dropWhile p = ys.dropWhile p := by
  rw [List.dropWhile_append, List.dropWhile_eq_nil_iff.mpr h]
  simp

lemma dropWhile_append_of_ne_nil {α : Type} (p : α → Bool) {xs : List α} (ys : List α)
    (h : xs.dropWhile p ≠ []) :
    (xs ++ ys).dropWhile p = xs.dropWhile p ++ ys := by
  rw [List.dropWhile_append]
  simp [List.isEmpty_iff, h]

lemma fmlMatch_shape {c : Char} {l : List Char} (h : fmlMatch (c :: l) = true) :
    c = 'F' ∧ ∃ ds, l = 'M' :: 'L' :: ds ∧ ds.all isDigitChar = true := by
  cases l with
  | nil => simp [fmlMatch] at h
  | cons b l2 =>
    cases l2 with
    | nil => simp [fmlMatch] at h
    | cons d l3 =>
      simp only [fmlMatch, Bool.and_eq_true, decide_eq_true_eq] at h
      obtain ⟨⟨⟨h1, h2⟩, h3⟩, h4⟩ := h
      exact ⟨h1, l3, by rw [h2, h3], h4⟩

lemma specStripFML_fml {ds : List Char} (hds : ds.all isDigitChar = true) :
    specStripFML ('F' :: 'M' :: 'L' :: ds) = [] := by
  unfold specStripFML
  have hrev : ('F' :: 'M' :: 'L' :: ds).reverse = ds.reverse ++ ['L', 'M', 'F'] := by
    simp
  have hmem : ∀ x ∈ ds.reverse, isDigitChar x = true := by
    intro x hx
    exact List.all_eq_true.mp (by rwa [List.all_reverse]) x hx
  have hLMF : List.dropWhile isDigitChar ['L', 'M', 'F'] = ['L', 'M', 'F'] := by decide
  rw [hrev, dropWhile_append_all _ _ hmem, hLMF, if_pos (by decide)]
  decide

lemma specStripFML_cons {c : Char} {l : List Char} (hm : fmlMatch (c :: l) = false) :
    specStripFML (c :: l) = c :: specStripFML l := by
  unfold specStripFML
  rw [List.reverse_cons]
  cases ht : l.reverse.dropWhile isDigitChar with
  | nil =>
    have hall : ∀ x ∈ l.reverse, isDigitChar x = true := List.dropWhile_eq_nil_iff.mp ht
    rw [dropWhile_append_all _ _ hall]
    by_cases hc : isDigitChar c = true
    · rw [List.dropWhile_cons, if_pos hc]
      simp
    · rw [List.dropWhile_cons, if_neg hc]
      simp
  | cons x t2 =>
    have hne : l.reverse.dropWhile isDigitChar ≠ [] := by rw [ht]; simp
    rw [dropWhile_append_of_ne_nil _ _ hne, ht]
    cases t2 with
    | nil => simp
    | cons y t3 =>
      cases t3 with
      | nil =>
        by_cases hcond : x = 'L' ∧ y = 'M' ∧ c = 'F'
        · exfalso
          obtain ⟨rfl, rfl, rfl⟩ := hcond
          have hR : l.reverse = l.reverse.takeWhile isDigitChar ++ ['L', 'M'] := by
            conv_lhs => rw [← List.takeWhile_append_dropWhile isDigitChar l.reverse]
            rw [ht]
          have hl : l = 'M' :: 'L' :: (l.reverse.takeWhile isDigitChar).reverse := by
            have hlr : l = l.reverse.reverse := (List.reverse_reverse l).symm
            conv_lhs => rw [hlr, hR]
            simp
          rw [hl] at hm
          have htrue :
              fmlMatch ('F' :: 'M' :: 'L' :: (l.reverse.takeWhile isDigitChar).reverse) =
                true := by
            simp [fmlMatch, List.all_reverse, List.all_takeWhile]
          simp [hm] at htrue
        · have h1 : ¬ (([x, y] ++ [c]).take 3 = ['L', 'M', 'F']) := by
            simp only [List.cons_append, List.nil_append, List.take]
            intro hx
            rw [List.cons.injEq, List.cons.injEq, List.cons.injEq] at hx
            exact hcond ⟨hx.1, hx.2.1, hx.2.2.1⟩
          have h2 : ¬ (([x, y] : List Char).take 3 = ['L', 'M', 'F']) := by
            simp
          rw [if_neg h1, if_neg h2]
      | cons z t4 =>
        by_cases hcond : ([x, y, z] : List Char) = ['L', 'M', 'F']
        · have h1 : ((x :: y :: z :: t4) ++ [c]).take 3 = ['L', 'M', 'F'] := by
            simpa using hcond
          have h2 : (x :: y :: z :: t4).take 3 = ['L', 'M', 'F'] := by
            simpa using hcond
          rw [if_pos h1, if_pos h2]
          simp
        · have h1 : ¬ (((x :: y :: z :: t4) ++ [c]).take 3 = ['L', 'M', 'F']) := by
            simpa using hcond
          have h2 : ¬ ((x :: y :: z :: t4).take 3 = ['L', 'M', 'F']) := by
            simpa using hcond
          rw [if_neg h1, if_neg h2]

/-- The recursive model of the regex replace agrees with the spec-worded
suffix strip. -/
lemma stripFML_eq_specStripFML : ∀ l, stripFML l = specStripFML l := by
  intro l
  induction l with
  | nil => rfl
  | cons c l ih =>
    by_cases hm : fmlMatch (c :: l) = true
    · obtain ⟨hc, ds, hl, hds⟩ := fmlMatch_shape hm
      subst hc
      subst hl
      rw [stripFML, if_pos hm, specStripFML_fml hds]
    · rw [stripFML, if_neg hm, ih, specStripFML_cons (Bool.not_eq_true _ ▸ hm)]

/-- The recursive model of the trailing-dot replace agrees with the
spec-worded dot strip. -/
lemma stripDots_eq_spec : ∀ l, stripTrailingDotsJs l = specStripTrailingDots l := by
  intro l
  induction l with
  | nil => rfl
  | cons c l ih =>
    unfold specStripTrailingDots
    by_cases hall : ((c :: l).all (· = '.')) = true
    · rw [stripTrailingDotsJs, if_pos hall]
      have : ∀ x ∈ (c :: l).reverse, (x = '.' : Bool) = true :=
        List.all_eq_true.mp (by rwa [List.all_reverse])
      rw [List.dropWhile_eq_nil_iff.mpr this]
      rfl
    · rw [stripTrailingDotsJs, if_neg hall, ih]
      unfold specStripTrailingDots
      rw [List.reverse_cons]
      by_cases hl : l.reverse.dropWhile (· = '.') = []
      · have halll : ∀ x ∈ l, (x = '.' : Bool) = true := by
          intro x hx
          exact List.dropWhile_eq_nil_iff.mp hl x (by simpa using hx)
        have hcnot : ¬ ((c = '.' : Bool) = true) := by
          intro hcon
          apply hall
          rw [List.all_cons, hcon, Bool.true_and, List.all_eq_true]
          exact halll
        rw [dropWhile_append_all _ _ (by
          intro x hx
          exact halll x (by simpa using hx))]
        rw [List.dropWhile_cons, if_neg hcnot, hl]
        simp
      · rw [dropWhile_append_of_ne_nil _ _ hl]
        simp

/-- C2 counterexample: the code does not lower-case, the spec wording does. -/
theorem sanitizeDomain_lowercase_cex :
    sanitizeDomain "A".data ≠ specNormalize "A".data := by decide

/-- C2 amended: `sanitizeDomain` performs exactly the spec's pipeline (strip
the character class, strip a trailing `FML` plus optional digits, trim
white-space, strip trailing dots) but without the final lower-casing step. -/
theorem sanitizeDomain_eq_spec_no_lower :
    ∀ l, sanitizeDomain l = specNormalizeNoLower l := by
  intro l
  unfold sanitizeDomain specNormalizeNoLower
  rw [stripFML_eq_specStripFML, stripDots_eq_spec]

lemma mem_stripFML {c : Char} : ∀ {l : List Char}, c ∈ stripFML l → c ∈ l := by
  intro l
  induction l with
  | nil => simp [stripFML]
  | cons a l ih =>
    rw [stripFML]
    split
    · simp
    · intro h
      rcases List.mem_cons.mp h with rfl | h
      · exact List.mem_cons_self _ _
      · exact List.mem_cons_of_mem _ (ih h)

lemma mem_trimJs {c : Char} {l : List Char} (h : c ∈ trimJs l) : c ∈ l := by
  unfold trimJs at h
  rw [List.mem_reverse] at h
  have h2 := (List.dropWhile_sublist _).subset h
  rw [List.mem_reverse] at h2
  exact (List.dropWhile_sublist _).subset h2

lemma mem_stripDots {c : Char} {l : List Char} (h : c ∈ stripTrailingDotsJs l) : c ∈ l := by
  rw [stripDots_eq_spec] at h
  unfold specStripTrailingDots at h
  rw [List.mem_reverse] at h
  have h2 := (List.dropWhile_sublist _).subset h
  rwa [List.mem_reverse] at h2

lemma sanitizeDomain_all_allowed {l : List Char} :
    ∀ c ∈ sanitizeDomain l, isAllowedChar c = true := by
  intro c hc
  unfold sanitizeDomain at hc
  exact List.of_mem_filter (mem_stripFML (mem_trimJs (mem_stripDots hc)))

lemma allowed_not_ws {c : Char} (h : isAllowedChar c = true) : isJsWhitespace c = false := by
  by_contra hcon
  rw [Bool.not_eq_false] at hcon
  unfold isJsWhitespace at hcon
  simp only [Bool.or_eq_true, decide_eq_true_eq] at hcon
  rcases hcon with ((((h1 | h1) | h1) | h1) | h1) | h1 <;> subst h1 <;> revert h <;> decide

lemma dropWhile_eq_self_of_all_false {α : Type} {p : α → Bool}
    {l : List α} (h : ∀ x ∈ l, p x = false) : l.dropWhile p = l := by
  cases l with
  | nil => rfl
  | cons a l =>
    rw [List.dropWhile_cons, if_neg (by simp [h a (List.mem_cons_self a l)])]

lemma trimJs_eq_self {l : List Char} (h : ∀ x ∈ l, isJsWhitespace x = false) :
    trimJs l = l := by
  unfold trimJs
  rw [dropWhile_eq_self_of_all_false h,
    dropWhile_eq_self_of_all_false (fun x hx => h x (List.mem_reverse.mp hx)),
    List.reverse_reverse]

lemma dropWhile_idem {α : Type} (p : α → Bool) (l : List α) :
    (l.dropWhile p).dropWhile p = l.dropWhile p := by
  induction l with
  | nil => rfl
  | cons a l ih =>
    rw [List.dropWhile_cons]
    split
    · exact ih
    · rw [List.dropWhile_cons, if_neg (by assumption)]

lemma stripDots_idem (l : List Char) :
    stripTrailingDotsJs (stripTrailingDotsJs l) = stripTrailingDotsJs l := by
  rw [stripDots_eq_spec, stripDots_eq_spec]
  unfold specStripTrailingDots
  rw [List.reverse_reverse, dropWhile_idem]

/-- C7 counterexample: normalising `"FML."` gives `"FML"`, which a second
normalisation strips to the empty string, so `norm (norm x) = norm x`
fails. -/
theorem sanitizeDomain_not_idempotent_cex :
    sanitizeDomain (sanitizeDomain "FML.".data) ≠ sanitizeDomain "FML.".data := by
  decide

/-- C7 amended: normalisation is idempotent on every input whose normal form
is unchanged by another `FML\d*` suffix strip (equivalently, whose normal
form does not end in `FML` followed by digits); in general a trailing-dot or
digit strip can expose a fresh `FML` suffix and break idempotence. -/
theorem sanitizeDomain_idem_of_no_fml (l : List Char)
    (h : stripFML (sanitizeDomain l) = sanitizeDomain l) :
    sanitizeDomain (sanitizeDomain l) = sanitizeDomain l := by
  have hall := sanitizeDomain_all_allowed (l := l)
  have hfilter : (sanitizeDomain l).filter isAllowedChar = sanitizeDomain l :=
    List.filter_eq_self.mpr hall
  have hws : ∀ x ∈ sanitizeDomain l, isJsWhitespace x = false := fun x hx =>
    allowed_not_ws (hall x hx)
  have hstep : sanitizeDomain (sanitizeDomain l) =
      stripTrailingDotsJs (trimJs (stripFML ((sanitizeDomain l).filter isAllowedChar))) :=
    rfl
  rw [hstep, hfilter, h, trimJs_eq_self hws]
  have hstep2 : sanitizeDomain l =
      stripTrailingDotsJs (trimJs (stripFML (l.filter isAllowedChar))) := rfl
  rw [hstep2, stripDots_idem]

/-- Witness for the amended C7 at a concrete domain. -/
theorem sanitizeDomain_idem_witness :
    sanitizeDomain (sanitizeDomain "example.com".data) =
      sanitizeDomain "example.com".data :=
  sanitizeDomain_idem_of_no_fml "example.com".data (by decide)

/-! ## Injected client-IP header (src/utils/protocolUtils.js, extractInjectedIP) -/

/-- The two failure modes of `extractInjectedIP`. -/
inductive InjectedIPError
  | missingMarker
  | shortHeader
deriving DecidableEq

/-- The ASCII bytes of the marker string `MCIP`; exactly these four bytes
decode to the string the code compares against. -/
def mcipMarker : List Nat := [77, 67, 73, 80]

/-- Model of `extractInjectedIP` (src/utils/protocolUtils.js, lines 200-221).
The IP and the residual are returned as byte slices.  When the length byte at
offset 4 is absent (the buffer holds exactly the 4-byte marker), the
JavaScript arithmetic on `undefined` yields `NaN`: `data.length < NaN` is
false, `slice(5, NaN)` is empty and `slice(NaN)` is the whole buffer, so the
code succeeds with an empty IP and the entire buffer as residual. -/
def extractInjectedIP (data : List Nat) :
    Except InjectedIPError (List Nat × List Nat) :=
  if data.take 4 ≠ mcipMarker then .error .missingMarker
  else
    match data[4]? with
    | none => .ok ([], data)
    | some ipLength =>
      if data.length < 4 + 1 + ipLength then .error .shortHeader
      else .ok ((data.drop 5).take ipLength, data.drop (4 + 1 + ipLength))

example : extractInjectedIP [77, 67, 73, 80, 2, 49, 46, 99] = .ok ([49, 46], [99]) := by
  decide
example : extractInjectedIP [77, 67, 73, 81, 2, 49, 46, 99] =
    .error .missingMarker := by decide
example : extractInjectedIP [77, 67, 73, 80, 9, 49, 46] =
    .error .shortHeader := by decide
example : extractInjectedIP [77, 67, 73, 80] = .ok ([], [77, 67, 73, 80]) := by decide

/-- C5 counterexample: on the 4-byte buffer holding only the marker, fewer
than `5 + L` bytes are present for every conceivable length `L`, yet the code
succeeds with an empty IP, and the residual is the whole buffer rather than a
slice starting at offset `5 + L`. -/
theorem extractInjectedIP_cex :
    extractInjectedIP [77, 67, 73, 80] = .ok ([], [77, 67, 73, 80]) ∧
      ([77, 67, 73, 80] : List Nat).length < 5 + ([] : List Nat).length ∧
      ([77, 67, 73, 80] : List Nat) ≠
        ([77, 67, 73, 80] : List Nat).drop (5 + ([] : List Nat).length) := by
  decide

/-- C5 amended: `extractInjectedIP` fails with the missing-marker error iff
bytes 0..3 are not `MCIP`; when a length byte `L` exists at offset 4 it fails
with the short-header error iff fewer than `5 + L` bytes are present, and
otherwise succeeds with the `L`-byte IP and the residual from offset `5 + L`;
when the marker matches but no length byte exists (a 4-byte buffer) it
succeeds with an empty IP and the whole buffer as residual. -/
theorem extractInjectedIP_spec (data : List Nat) :
    (extractInjectedIP data = .error .missingMarker ↔ data.take 4 ≠ mcipMarker) ∧
      (∀ ipLength, data[4]? = some ipLength →
        (extractInjectedIP data = .error .shortHeader ↔
          data.take 4 = mcipMarker ∧ data.length < 5 + ipLength)) ∧
      (data.take 4 = mcipMarker → data[4]? = none →
        extractInjectedIP data = .ok ([], data)) ∧
      (∀ ipLength, data.take 4 = mcipMarker → data[4]? = some ipLength →
        5 + ipLength ≤ data.length →
        extractInjectedIP data =
          .ok ((data.drop 5).take ipLength, data.drop (5 + ipLength))) := by
  refine ⟨?_, ?_, ?_, ?_⟩
  · unfold extractInjectedIP
    by_cases hmk : data.take 4 = mcipMarker
    · rw [if_neg (by simp [hmk])]
      cases hv : data[4]? with
      | none => simp [hmk]
      | some L =>
        simp only []
        by_cases hlen : data.length < 4 + 1 + L
        · rw [if_pos hlen]
          simp [hmk]
        · rw [if_neg hlen]
          simp [hmk]
    · rw [if_pos hmk]
      simp [hmk]
  · intro L hL
    unfold extractInjectedIP
    by_cases hmk : data.take 4 = mcipMarker
    · rw [if_neg (by simp [hmk]), hL]
      simp only []
      by_cases hlen : data.length < 4 + 1 + L
      · rw [if_pos hlen]
        simp only [hmk, true_and]
        constructor
        · intro
          omega
        · intro
          trivial
      · rw [if_neg hlen]
        simp only [hmk, true_and]
        constructor
        · intro hcon
          cases hcon
        · intro hcon
          omega
    · rw [if_pos hmk]
      simp [hmk]
  · intro hmk hnone
    unfold extractInjectedIP
    rw [if_neg (by simp [hmk]), hnone]
  · intro L hmk hL hlen
    unfold extractInjectedIP
    rw [if_neg (by simp [hmk]), hL]
    simp only []
    rw [if_neg (by omega)]

/-- Witness for the amended C5 on a concrete 8-byte packet. -/
theorem extractInjectedIP_spec_witness :
    extractInjectedIP [77, 67, 73, 80, 2, 49, 46, 99] =
      .ok ((([77, 67, 73, 80, 2, 49, 46, 99] : List Nat).drop 5).take 2,
        ([77, 67, 73, 80, 2, 49, 46, 99] : List Nat).drop (5 + 2)) :=
  (extractInjectedIP_spec [77, 67, 73, 80, 2, 49, 46, 99]).2.2.2 2 (by decide)
    (by decide) (by decide)

/-! ## Handshake codec (src/utils/protocolUtils.js, parseModernHandshake and
getModernMinecraftDomain) -/

/-- Byte-wise decoding of an ASCII byte list to characters; models
`Buffer.toString('utf8', ...)` for the ASCII inputs the theorems use. -/
def asciiDecode (bs : List Nat) : List Char :=
  bs.map Char.ofNat

/-- Model of `Buffer.toString('utf8', s, e)` index handling: a start at or
below 0 becomes 0, an end beyond the length becomes the length, and the
result is empty when the clamped end does not exceed the clamped start. -/
def jsToString (data : List Nat) (s e : Int) : List Char :=
  let len : Int := data.length
  let s2 : Int := if s ≤ 0 then 0 else min s len
  let e2 : Int := if len < e then len else max e 0
  if e2 ≤ s2 then [] else asciiDecode ((data.take e2.toNat).drop s2.toNat)

/-- Model of `Buffer.slice(s)`: a negative start counts from the end of the
buffer, and out-of-range starts are clamped. -/
def jsSlice (data : List Nat) (s : Int) : List Nat :=
  if s < 0 then data.drop (data.length + s).toNat else data.drop s.toNat

/-- Model of `parseModernHandshake` (src/utils/protocolUtils.js, lines
78-101): VarInt packet length, VarInt packet id (must be 0), VarInt protocol
version, VarInt address length, then the address bytes, decoded and passed
through `sanitizeDomain`.  Any `readVarInt` throw is caught and becomes
`none`. -/
def parseModernHandshake (data : List Nat) : Option (List Char) :=
  match readVarInt data 0 with
  | .error _ => none
  | .ok (_, lengthBytes) =>
    match readVarInt data lengthBytes with
    | .error _ => none
    | .ok (packetId, idBytes) =>
      if packetId ≠ 0 then none
      else
        match readVarInt data (lengthBytes + idBytes) with
        | .error _ => none
        | .ok (_, versionBytes) =>
          match readVarInt data (lengthBytes + idBytes + versionBytes) with
          | .error _ => none
          | .ok (addressLength, addressLengthBytes) =>
            some (sanitizeDomain (jsToString data
              (lengthBytes + idBytes + versionBytes + addressLengthBytes)
              (lengthBytes + idBytes + versionBytes + addressLengthBytes +
                addressLength)))

/-- Model of `getModernMinecraftDomain` (src/utils/protocolUtils.js, lines
126-139): the parsed (sanitised) domain together with the buffer sliced just
past `lenBytes + packetLength`; a `readVarInt` throw yields `(null, null)`. -/
def getModernMinecraftDomain (data : List Nat) :
    Option (List Char) × Option (List Nat) :=
  match readVarInt data 0 with
  | .error _ => (none, none)
  | .ok (packetLength, lengthBytes) =>
    (parseModernHandshake data, some (jsSlice data ((lengthBytes : Int) + packetLength)))

example : getModernMinecraftDomain [9, 0, 0, 3, 97, 32, 98, 0, 0, 1, 42] =
    (some ['a', 'b'], some [42]) := by decide

/-- C4 counterexample: a well-formed handshake advertising the address
`"a b"` (bytes 97, 32, 98).  The codec returns the sanitised address `"ab"`,
not the raw parsed address `"a b"`; the residual slice is as claimed. -/
theorem getModernMinecraftDomain_cex :
    (getModernMinecraftDomain [9, 0, 0, 3, 97, 32, 98, 0, 0, 1, 42]).1 =
        some ['a', 'b'] ∧
      (['a', 'b'] : List Char) ≠ ['a', ' ', 'b'] ∧
      asciiDecode [97, 32, 98] = ['a', ' ', 'b'] ∧
      (getModernMinecraftDomain [9, 0, 0, 3, 97, 32, 98, 0, 0, 1, 42]).2 =
        some [42] := by
  decide

lemma readVarInt_at_encode {buffer : List Nat} {offset n : Nat} {rest : List Nat}
    (h : buffer.drop offset = encodeVarInt n ++ rest) (hn : n < 2 ^ 31) :
    readVarInt buffer offset = .ok ((n : Int), (encodeVarInt n).length) := by
  have hmain := readVarIntLoop_encode n 0 0 buffer rest offset (by simpa using h)
    (by norm_num) (by simpa using hn) (by omega)
  simpa [readVarInt] using hmain

lemma jsToString_extract (pre addr post : List Nat) :
    jsToString (pre ++ (addr ++ post)) (pre.length : Int)
      ((pre.length : Nat) + (addr.length : Int)) = asciiDecode addr := by
  unfold jsToString
  have hlen : ((pre ++ (addr ++ post)).length : Int) =
      (pre.length : Int) + addr.length + post.length := by
    push_cast [List.length_append]
    ring
  have hs2 : (if (pre.length : Int) ≤ 0 then 0
      else min (pre.length : Int) ((pre ++ (addr ++ post)).length : Int)) =
      (pre.length : Int) := by
    rw [hlen]
    split <;> omega
  have he2 : (if ((pre ++ (addr ++ post)).length : Int) <
        ((pre.length : Nat) + (addr.length : Int)) then
        ((pre ++ (addr ++ post)).length : Int)
      else max ((pre.length : Nat) + (addr.length : Int)) 0) =
      (pre.length : Int) + addr.length := by
    rw [hlen]
    split <;> omega
  simp only [hs2, he2]
  by_cases haddr : addr.length = 0
  · rw [if_pos (by omega)]
    rw [List.length_eq_zero] at haddr
    subst haddr
    rfl
  · rw [if_neg (by omega)]
    have ht : ((pre.length : Int) + addr.length).toNat = pre.length + addr.length := by
      omega
    have hst : ((pre.length : Int)).toNat = pre.length := by omega
    rw [ht, hst]
    have htake : (pre ++ (addr ++ post)).take (pre.length + addr.length) = pre ++ addr := by
      rw [← List.append_assoc]
      exact List.take_left' (by rw [List.length_append])
    rw [htake, List.drop_left' rfl]

lemma jsSlice_extract (pre post : List Nat) :
    jsSlice (pre ++ post) (pre.length : Int) = post := by
  unfold jsSlice
  rw [if_neg (by omega)]
  have ht : ((pre.length : Int)).toNat = pre.length := by omega
  rw [ht]
  exact List.drop_left' rfl

/-- C4 amended: on every well-formed handshake buffer (VarInt packetLength,
VarInt packetId = 0, VarInt protocolVersion, VarInt addrLen, the address
bytes, u16be port, VarInt nextState, then arbitrary trailing bytes), the
codec returns the SANITISED parsed address — normalisation happens inside the
codec, not in the caller — together with the residual slice starting exactly
at offset `lenBytes + packetLength`. -/
theorem getModernMinecraftDomain_spec
    (V AL ns p1 p2 PL : Nat) (addr tail rest data : List Nat)
    (hAL : AL = addr.length)
    (htail : tail = [p1, p2] ++ encodeVarInt ns)
    (hPL : PL = (encodeVarInt 0 ++ (encodeVarInt V ++
      (encodeVarInt AL ++ (addr ++ tail)))).length)
    (hPLlt : PL < 2 ^ 31) (hV : V < 2 ^ 31) (hALlt : AL < 2 ^ 31)
    (hdata : data = encodeVarInt PL ++ (encodeVarInt 0 ++ (encodeVarInt V ++
      (encodeVarInt AL ++ (addr ++ (tail ++ rest)))))) :
    getModernMinecraftDomain data =
      (some (sanitizeDomain (asciiDecode addr)), some rest) := by
  have hr0 : readVarInt data 0 = .ok ((PL : Int), (encodeVarInt PL).length) :=
    readVarInt_at_encode (by rw [List.drop_zero, hdata]) hPLlt
  have h1 : data.drop (encodeVarInt PL).length =
      encodeVarInt 0 ++ (encodeVarInt V ++ (encodeVarInt AL ++ (addr ++ (tail ++ rest)))) := by
    rw [hdata]
    exact List.drop_left' rfl
  have hr1 : readVarInt data (encodeVarInt PL).length =
      .ok (((0 : Nat) : Int), (encodeVarInt 0).length) :=
    readVarInt_at_encode h1 (by norm_num)
  have h2 : data.drop ((encodeVarInt PL).length + (encodeVarInt 0).length) =
      encodeVarInt V ++ (encodeVarInt AL ++ (addr ++ (tail ++ rest))) := by
    rw [hdata, ← List.append_assoc]
    exact List.drop_left' (by rw [List.length_append])
  have hr2 : readVarInt data ((encodeVarInt PL).length + (encodeVarInt 0).length) =
      .ok ((V : Int), (encodeVarInt V).length) :=
    readVarInt_at_encode h2 hV
  have h3 : data.drop ((encodeVarInt PL).length + (encodeVarInt 0).length +
      (encodeVarInt V).length) = encodeVarInt AL ++ (addr ++ (tail ++ rest)) := by
    rw [hdata, ← List.append_assoc, ← List.append_assoc]
    exact List.drop_left' (by rw [List.length_append, List.length_append])
  have hr3 : readVarInt data ((encodeVarInt PL).length + (encodeVarInt 0).length +
      (encodeVarInt V).length) = .ok ((AL : Int), (encodeVarInt AL).length) :=
    readVarInt_at_encode h3 hALlt
  have haddr : jsToString data
      (((encodeVarInt PL).length : Int) + ((encodeVarInt 0).length : Int) +
        ((encodeVarInt V).length : Int) + ((encodeVarInt AL).length : Int))
      (((encodeVarInt PL).length : Int) + ((encodeVarInt 0).length : Int) +
        ((encodeVarInt V).length : Int) + ((encodeVarInt AL).length : Int) + (AL : Int)) =
      asciiDecode addr := by
    have hdata4 : data = (((encodeVarInt PL ++ encodeVarInt 0) ++ encodeVarInt V) ++
        encodeVarInt AL) ++ (addr ++ (tail ++ rest)) := by
      rw [hdata]
      simp [List.append_assoc]
    have hplen : ((((encodeVarInt PL ++ encodeVarInt 0) ++ encodeVarInt V) ++
        encodeVarInt AL)).length =
        (encodeVarInt PL).length + (encodeVarInt 0).length + (encodeVarInt V).length +
          (encodeVarInt AL).length := by
      simp [List.length_append]
      omega
    have harg1 : ((encodeVarInt PL).length : Int) + ((encodeVarInt 0).length : Int) +
        ((encodeVarInt V).length : Int) + ((encodeVarInt AL).length : Int) =
        (((((encodeVarInt PL ++ encodeVarInt 0) ++ encodeVarInt V) ++
          encodeVarInt AL)).length : Int) := by
      rw [hplen]
      push_cast
      ring
    rw [hdata4, harg1, hAL]
    exact jsToString_extract _ addr _
  have hslice : jsSlice data (((encodeVarInt PL).length : Int) + (PL : Int)) = rest := by
    have hdata5 : data = (encodeVarInt PL ++ (encodeVarInt 0 ++ (encodeVarInt V ++
        (encodeVarInt AL ++ (addr ++ tail))))) ++ rest := by
      rw [hdata]
      simp [List.append_assoc]
    have hplen2 : (encodeVarInt PL ++ (encodeVarInt 0 ++ (encodeVarInt V ++
        (encodeVarInt AL ++ (addr ++ tail))))).length = (encodeVarInt PL).length + PL := by
      rw [List.length_append, hPL]
    have hcast : ((encodeVarInt PL).length : Int) + (PL : Int) =
        (((encodeVarInt PL ++ (encodeVarInt 0 ++ (encodeVarInt V ++
          (encodeVarInt AL ++ (addr ++ tail))))).length : Nat) : Int) := by
      rw [hplen2]
      push_cast
      ring
    rw [hdata5, hcast]
    exact jsSlice_extract _ _
  have hparse : parseModernHandshake data = some (sanitizeDomain (asciiDecode addr)) := by
    unfold parseModernHandshake
    rw [hr0]
    simp only []
    rw [hr1]
    simp only []
    rw [if_neg (by simp)]
    rw [hr2]
    simp only []
    rw [hr3]
    simp only []
    rw [haddr]
  unfold getModernMinecraftDomain
  rw [hr0]
  simp only []
  rw [hparse, hslice]

/-- Witness for the amended C4 on the concrete handshake buffer advertising
the address bytes 97, 32, 98. -/
theorem getModernMinecraftDomain_spec_witness :
    getModernMinecraftDomain [9, 0, 0, 3, 97, 32, 98, 0, 0, 1, 42] =
      (some (sanitizeDomain (asciiDecode [97, 32, 98])), some [42]) :=
  getModernMinecraftDomain_spec 0 3 1 0 0 9 [97, 32, 98] [0, 0, 1] [42]
    [9, 0, 0, 3, 97, 32, 98, 0, 0, 1, 42] (by decide) (by decide) (by decide)
    (by norm_num) (by norm_num) (by norm_num) (by decide)

/-! ## Firewall evaluation (src/server/tcpProxy.js, lines 174-191) -/

structure FirewallRule where
  type : List Char
  value : List Char
deriving DecidableEq

/-- Model of the `isBanned` computation in `handleClientConnection`: the
fetched rules are scanned with `some`, each rule compared by strict equality
against the session's ip, username and uuid. -/
def isBanned (firewallRules : List FirewallRule) (ip username uuid : List Char) : Bool :=
  firewallRules.any fun rule =>
    if rule.type = "ipBan".data ∧ rule.value = ip then true
    else if rule.type = "usernameBan".data ∧ rule.value = username then true
    else if rule.type = "uuidBan".data ∧ rule.value = uuid then true
    else false

/-- C6: a session is blocked iff some fetched rule matches the session's
ip, username or uuid exactly. -/
theorem isBanned_iff (firewallRules : List FirewallRule) (ip username uuid : List Char) :
    isBanned firewallRules ip username uuid = true ↔
      ∃ rule ∈ firewallRules,
        (rule.type = "ipBan".data ∧ rule.value = ip) ∨
        (rule.type = "usernameBan".data ∧ rule.value = username) ∨
        (rule.type = "uuidBan".data ∧ rule.value = uuid) := by
  unfold isBanned
  rw [List.any_eq_true]
  constructor
  · rintro ⟨rule, hmem, hrule⟩
    refine ⟨rule, hmem, ?_⟩
    split_ifs at hrule with h1 h2 h3
    · exact Or.inl h1
    · exact Or.inr (Or.inl h2)
    · exact Or.inr (Or.inr h3)
  · rintro ⟨rule, hmem, hcase⟩
    refine ⟨rule, hmem, ?_⟩
    split_ifs with h1 h2 h3
    · rfl
    · rfl
    · rfl
    · rcases hcase with h | h | h
      · exact absurd h h1
      · exact absurd h h2
      · exact absurd h h3

/-- Witness for C6: a uuid-ban rule blocks the matching session. -/
theorem isBanned_iff_witness :
    isBanned [⟨"uuidBan".data, "abc".data⟩] "1.2.3.4".data "alice".data "abc".data =
      true :=
  (isBanned_iff _ _ _ _).mpr
    ⟨⟨"uuidBan".data, "abc".data⟩, by simp, Or.inr (Or.inr ⟨rfl, rfl⟩)⟩

/-! ## Routing table (src/routes/domainRouting.js, src/api/expressApi.js) -/

structure Target where
  host : List Char
  port : Nat
deriving DecidableEq

/-- JavaScript object property read on an association list with unique keys
(as in a JS object). -/
def getProp {κ β : Type} [DecidableEq κ] : List (κ × β) → κ → Option β
  | [], _ => none
  | (a, v) :: m, k => if k = a then some v else getProp m k

/-- JavaScript object property assignment: overwrite an existing key or add a
new one. -/
def setProp {κ β : Type} [DecidableEq κ] : List (κ × β) → κ → β → List (κ × β)
  | [], k, v => [(k, v)]
  | (a, w) :: m, k, v => if k = a then (a, v) :: m else (a, w) :: setProp m k v

/-- JavaScript `delete object[key]`. -/
def delProp {κ β : Type} [DecidableEq κ] : List (κ × β) → κ → List (κ × β)
  | [], _ => []
  | (a, w) :: m, k => if k = a then delProp m k else (a, w) :: delProp m k

lemma getProp_setProp_self {κ β : Type} [DecidableEq κ]
    (m : List (κ × β)) (k : κ) (v : β) : getProp (setProp m k v) k = some v := by
  induction m with
  | nil => simp [setProp, getProp]
  | cons a m ih =>
    obtain ⟨ka, va⟩ := a
    by_cases h : k = ka
    · simp [setProp, getProp, h]
    · simp [setProp, getProp, h, ih]

lemma getProp_setProp_ne {κ β : Type} [DecidableEq κ]
    (m : List (κ × β)) (k j : κ) (v : β) (hj : j ≠ k) :
    getProp (setProp m k v) j = getProp m j := by
  induction m with
  | nil => simp [setProp, getProp, hj]
  | cons a m ih =>
    obtain ⟨ka, va⟩ := a
    by_cases h : k = ka
    · subst h
      simp [setProp, getProp, hj]
    · by_cases hja : j = ka
      · simp [setProp, getProp, h, hja]
      · simp [setProp, getProp, h, hja, ih]

lemma getProp_delProp_self {κ β : Type} [DecidableEq κ]
    (m : List (κ × β)) (k : κ) : getProp (delProp m k) k = none := by
  induction m with
  | nil => simp [delProp, getProp]
  | cons a m ih =>
    obtain ⟨ka, va⟩ := a
    by_cases h : k = ka
    · subst h
      simp [delProp, ih]
    · simp [delProp, getProp, h, ih]

lemma getProp_delProp_ne {κ β : Type} [DecidableEq κ]
    (m : List (κ × β)) (k j : κ) (hj : j ≠ k) :
    getProp (delProp m k) j = getProp m j := by
  induction m with
  | nil => simp [delProp]
  | cons a m ih =>
    obtain ⟨ka, va⟩ := a
    by_cases h : k = ka
    · subst h
      simp [delProp, getProp, hj, ih]
    · by_cases hja : j = ka
      · simp [delProp, getProp, h, hja, ih]
      · simp [delProp, getProp, h, hja, ih]

/-- In-memory routing map together with the persisted copy of the table
(`domainRouting.json`); `saveRouting` writes the whole map to the store. -/
structure RoutingState where
  map : List (List Char × Target)
  store : List (List Char × Target)
deriving DecidableEq

/-- Model of `domainRouting.get`: `domainRouting[domain] || null` (targets
are objects, hence truthy). -/
def routingGet (st : RoutingState) (domain : List Char) : Option Target :=
  getProp st.map domain

/-- Model of `domainRouting.set`: store under the domain string exactly as
given, then persist the whole table. -/
def routingSet (st : RoutingState) (domain : List Char) (target : Target) :
    RoutingState :=
  { map := setProp st.map domain target, store := setProp st.map domain target }

/-- Model of `domainRouting.remove`: delete the raw domain key when present
and persist; report whether a key was removed. -/
def routingRemove (st : RoutingState) (domain : List Char) : Bool × RoutingState :=
  match getProp st.map domain with
  | none => (false, st)
  | some _ =>
    (true, { map := delProp st.map domain, store := delProp st.map domain })

/-- Model of the control-plane upsert (`POST /api/routing` in
src/api/expressApi.js): validate that the fields are truthy, then pass the
request's domain to `domainRouting.set` unchanged — no normalisation. -/
def upsertRoute (st : RoutingState) (domain host : List Char) (port : Nat) :
    Bool × RoutingState :=
  if domain = [] ∨ host = [] ∨ port = 0 then (false, st)
  else (true, routingSet st domain { host := host, port := port })

/-- C3 counterexample: upserting the raw domain `"AB "` (with a trailing
space) and looking up its normalisation `"AB"` finds nothing, because no
mutating operation normalises the domain. -/
theorem routing_normalisation_cex :
    routingGet ((upsertRoute ⟨[], []⟩ "AB ".data "h".data 25565).2)
        (sanitizeDomain "AB ".data) = none ∧
      sanitizeDomain "AB ".data ≠ "AB ".data ∧
      (none : Option Target) ≠ some ⟨"h".data, 25565⟩ := by
  decide

/-- C3 amended: the mutating operations use the raw domain string (no
normalisation): after a validated upsert of `d` the lookup of `d` itself
yields the target, other keys are untouched, the whole table is persisted,
and removing `d` afterwards leaves no entry for `d` and persists again. -/
theorem routing_raw_key_spec (st : RoutingState) (d h : List Char) (p : Nat)
    (hd : d ≠ []) (hh : h ≠ []) (hp : p ≠ 0) :
    (upsertRoute st d h p).1 = true ∧
      routingGet (upsertRoute st d h p).2 d = some ⟨h, p⟩ ∧
      ((upsertRoute st d h p).2).store = ((upsertRoute st d h p).2).map ∧
      (∀ j, j ≠ d → routingGet (upsertRoute st d h p).2 j = routingGet st j) ∧
      (routingRemove (upsertRoute st d h p).2 d).1 = true ∧
      routingGet (routingRemove (upsertRoute st d h p).2 d).2 d = none ∧
      ((routingRemove (upsertRoute st d h p).2 d).2).store =
        ((routingRemove (upsertRoute st d h p).2 d).2).map := by
  have hval : ¬ (d = [] ∨ h = [] ∨ p = 0) := by tauto
  unfold upsertRoute
  rw [if_neg hval]
  simp only []
  unfold routingGet routingSet routingRemove
  simp only []
  rw [getProp_setProp_self]
  simp only []
  refine ⟨by trivial, by trivial, by trivial, ?_, by trivial, ?_, by trivial⟩
  · intro j hj
    exact getProp_setProp_ne _ _ _ _ hj
  · exact getProp_delProp_self _ _

/-- Witness for the amended C3 on a concrete routing state. -/
theorem routing_raw_key_spec_witness :
    routingGet ((upsertRoute ⟨[], []⟩ "AB ".data "h".data 25565).2) "AB ".data =
      some ⟨"h".data, 25565⟩ :=
  (routing_raw_key_spec ⟨[], []⟩ "AB ".data "h".data 25565 (by decide) (by decide)
    (by decide)).2.1

/-! ## Connection registry and splice teardown (src/server/tcpProxy.js) -/

structure Conn where
  domain : List Char
  ip : List Char
  username : List Char
  uuid : List Char
  clientSocket : Nat
  remotePort : Nat
  connectionId : Nat
deriving DecidableEq

/-- Proxy state: the `activeConnections` registry keyed by connection id,
plus the collection of socket ids on which `end()` has been called. -/
structure ProxyState where
  registry : List (Nat × Conn)
  ended : List Nat
deriving DecidableEq

/-- Ending a socket (`socket.end()`). -/
def endSocket (s : ProxyState) (sock : Nat) : ProxyState :=
  { s with ended := sock :: s.ended }

/-- REGISTER step: `activeConnections[connectionId] = {...}` after the
upstream dial succeeded. -/
def registerConnection (s : ProxyState) (id : Nat) (c : Conn) : ProxyState :=
  { s with registry := setProp s.registry id c }

/-- The splice-exit events observable on a forwarding pair. -/
inductive SpliceEvent
  | clientEnd
  | remoteEnd
  | clientError
  | remoteError

/-- Model of the handlers installed by `setupDataForwarding` (lines 370-418)
plus the extra client-error handler in `handleClientConnection` (lines
230-234): the event's own socket is closed by the peer EOF or the error, and
the handler ends the opposite socket.  No handler touches
`activeConnections`. -/
def spliceEventStep (s : ProxyState) (clientSock remoteSock : Nat) :
    SpliceEvent → ProxyState
  | .clientEnd => endSocket (endSocket s clientSock) remoteSock
  | .remoteEnd => endSocket (endSocket s remoteSock) clientSock
  | .clientError => endSocket (endSocket s clientSock) remoteSock
  | .remoteError => endSocket (endSocket s remoteSock) clientSock

/-- Model of `deleteConnection` (lines 255-261), the only code that removes a
registry record. -/
def deleteConnection (s : ProxyState) (id : Nat) : Bool × ProxyState :=
  match getProp s.registry id with
  | none => (false, s)
  | some c =>
    (true, { registry := delProp s.registry id, ended := c.clientSocket :: s.ended })

/-- C1: no splice-exit handler removes the registry record.  Every splice
event leaves `activeConnections` untouched; concretely, a session registered
as connection 5 whose client socket (id 0) ends keeps its record in the
registry even though both sockets of the pipe have been ended, so a record
for a closed session remains. -/
theorem spliceEvent_never_removes_record :
    (∀ (s : ProxyState) (clientSock remoteSock : Nat) (e : SpliceEvent),
        (spliceEventStep s clientSock remoteSock e).registry = s.registry) ∧
      (∀ (conn : Conn),
        getProp (spliceEventStep (registerConnection ⟨[], []⟩ 5 conn) 0 1
          .clientEnd).registry 5 = some conn ∧
        0 ∈ (spliceEventStep (registerConnection ⟨[], []⟩ 5 conn) 0 1
          .clientEnd).ended ∧
        1 ∈ (spliceEventStep (registerConnection ⟨[], []⟩ 5 conn) 0 1
          .clientEnd).ended) := by
  constructor
  · intro s cs rs e
    cases e <;> rfl
  · intro conn
    refine ⟨rfl, ?_, ?_⟩ <;> simp [spliceEventStep, endSocket, registerConnection]

/-- C10: `deleteConnection` returns false and leaves the state unchanged
when no record with the id exists; when a record exists it ends exactly that
record's client socket, removes exactly that record, and returns true. -/
theorem deleteConnection_spec (s : ProxyState) (id : Nat) :
    (getProp s.registry id = none → deleteConnection s id = (false, s)) ∧
      (∀ c, getProp s.registry id = some c →
        (deleteConnection s id).1 = true ∧
        getProp (deleteConnection s id).2.registry id = none ∧
        (∀ j, j ≠ id →
          getProp (deleteConnection s id).2.registry j = getProp s.registry j) ∧
        (deleteConnection s id).2.ended = c.clientSocket :: s.ended) := by
  constructor
  · intro h
    unfold deleteConnection
    rw [h]
  · intro c h
    unfold deleteConnection
    rw [h]
    exact ⟨rfl, getProp_delProp_self _ _, fun j hj => getProp_delProp_ne _ _ _ hj, rfl⟩

/-- Witness for C10 at both a missing and a present id. -/
theorem deleteConnection_spec_witness :
    deleteConnection ⟨[], []⟩ 7 = (false, ⟨[], []⟩) ∧
      (deleteConnection ⟨[(5, ⟨[], [], [], [], 0, 25565, 5⟩)], []⟩ 5).1 = true :=
  ⟨(deleteConnection_spec ⟨[], []⟩ 7).1 rfl,
    ((deleteConnection_spec ⟨[(5, ⟨[], [], [], [], 0, 25565, 5⟩)], []⟩ 5).2
      ⟨[], [], [], [], 0, 25565, 5⟩ rfl).1⟩

end MCProxy
